import Mathlib

/-!
Verification of the em multi-tenant CRDT document-replication server
(`src/server/index.ts`) against its natural-language specification.

Strings from the TypeScript source are modelled as `List Char`; Y.Map
instances as association lists; CRDT document states as finite sets of
update identifiers (merge is set union, which is commutative, associative
and idempotent, matching Yjs update semantics).
-/

namespace EmServer

/-- Character-list strings, the shallow embedding of TypeScript strings. -/
abbrev Str := List Char

/-! ## Document name codec

Modelled from the spec: the module `src/data-providers/yjs/documentNameEncoder`
is imported by `src/server/index.ts` but its source is not part of the
repository snapshot.  The spec describes it as a stable text format
distinguishing kinds `thought`, `lexeme`, `doclog`, `permissions`, each
carrying a tenant id and, for thought/lexeme, an entity id, flattened into a
single key string; we realise it with a `/`-separated format. -/

/-- The four document kinds of the data model. -/
inductive DocKind where
  | thought
  | lexeme
  | doclog
  | permissions
deriving DecidableEq, Repr

/-- A composite document identifier: tenant id, kind, optional entity id. -/
structure DocumentName where
  tsid : Str
  kind : DocKind
  id : Option Str
deriving DecidableEq, Repr

/-- Splits a character list at a separator: first field plus remaining fields. -/
def splitAux (sep : Char) : Str → Str × List Str
  | [] => ([], [])
  | c :: cs =>
    if c = sep then ([], (splitAux sep cs).1 :: (splitAux sep cs).2)
    else (c :: (splitAux sep cs).1, (splitAux sep cs).2)

/-- Splits a character list into its `sep`-separated fields (never empty). -/
def splitSep (sep : Char) (s : Str) : List Str :=
  (splitAux sep s).1 :: (splitAux sep s).2

/-- Joins fields with a separator; left inverse of `splitSep`. -/
def joinSep (sep : Char) : List Str → Str
  | [] => []
  | [w] => w
  | w :: ws => w ++ sep :: joinSep sep ws

theorem splitAux_cons_sep (sep : Char) (cs : Str) :
    splitAux sep (sep :: cs) = ([], (splitAux sep cs).1 :: (splitAux sep cs).2) := by
  simp [splitAux]

theorem splitAux_cons_ne (sep c : Char) (cs : Str) (h : c ≠ sep) :
    splitAux sep (c :: cs) = (c :: (splitAux sep cs).1, (splitAux sep cs).2) := by
  simp [splitAux, h]

theorem joinSep_pair (sep : Char) (w x : Str) (ws : List Str) :
    joinSep sep (w :: x :: ws) = w ++ sep :: joinSep sep (x :: ws) := by
  rfl

theorem joinSep_splitSep (sep : Char) (s : Str) :
    joinSep sep (splitSep sep s) = s := by
  induction s with
  | nil => rfl
  | cons c cs ih =>
    by_cases hc : c = sep
    · subst hc
      simp only [splitSep, splitAux_cons_sep, joinSep_pair]
      simp only [splitSep] at ih
      simp [ih]
    · simp only [splitSep, splitAux_cons_ne sep c cs hc]
      simp only [splitSep] at ih
      cases hrest : (splitAux sep cs).2 with
      | nil =>
        rw [hrest] at ih
        simp only [joinSep] at ih ⊢
        simp [ih]
      | cons w ws =>
        rw [hrest] at ih
        rw [joinSep_pair] at ih ⊢
        rw [List.cons_append, ih]

theorem splitAux_no_sep (sep : Char) (s : Str) (h : sep ∉ s) :
    splitAux sep s = (s, []) := by
  induction s with
  | nil => rfl
  | cons c cs ih =>
    simp only [List.mem_cons, not_or] at h
    rw [splitAux_cons_ne sep c cs (fun hh => h.1 hh.symm), ih h.2]

theorem splitAux_append (sep : Char) (a b : Str) (h : sep ∉ a) :
    splitAux sep (a ++ sep :: b) = (a, (splitAux sep b).1 :: (splitAux sep b).2) := by
  induction a with
  | nil => simp [splitAux_cons_sep]
  | cons c cs ih =>
    simp only [List.mem_cons, not_or] at h
    rw [List.cons_append, splitAux_cons_ne sep c _ (fun hh => h.1 hh.symm), ih h.2]

theorem splitSep_append (sep : Char) (a b : Str) (h : sep ∉ a) :
    splitSep sep (a ++ sep :: b) = a :: splitSep sep b := by
  simp [splitSep, splitAux_append sep a b h]

theorem splitSep_no_sep (sep : Char) (s : Str) (h : sep ∉ s) :
    splitSep sep s = [s] := by
  simp [splitSep, splitAux_no_sep sep s h]

/-- Modelled from the spec: the text name of each document kind. -/
def kindStr : DocKind → Str
  | .thought => "thought".toList
  | .lexeme => "lexeme".toList
  | .doclog => "doclog".toList
  | .permissions => "permissions".toList

/-- A document name is valid when tenant and entity ids avoid the separator
and the entity id is present exactly for thought/lexeme kinds. -/
def validName (d : DocumentName) : Bool :=
  decide ('/' ∉ d.tsid) &&
    match d.kind, d.id with
    | .thought, some i => decide ('/' ∉ i)
    | .lexeme, some i => decide ('/' ∉ i)
    | .doclog, none => true
    | .permissions, none => true
    | _, _ => false

/-- Modelled from the spec: encode a document name triple to its flat key. -/
def encode (d : DocumentName) : Str :=
  d.tsid ++ ('/' :: (kindStr d.kind ++
    (match d.id with
     | some i => '/' :: i
     | none => [])))

/-- Modelled from the spec: decode a flat key back into a document name
triple, failing on malformed input. -/
def decode (s : Str) : Option DocumentName :=
  match splitSep '/' s with
  | [t, k] =>
    if k = kindStr .doclog then some ⟨t, .doclog, none⟩
    else if k = kindStr .permissions then some ⟨t, .permissions, none⟩
    else none
  | [t, k, i] =>
    if k = kindStr .thought then some ⟨t, .thought, some i⟩
    else if k = kindStr .lexeme then some ⟨t, .lexeme, some i⟩
    else none
  | _ => none

theorem kindStr_no_sep (k : DocKind) : '/' ∉ kindStr k := by
  cases k <;> decide

theorem decode_of_split_two (s t k : Str) (hs : splitSep '/' s = [t, k]) :
    decode s =
      (if k = kindStr .doclog then some ⟨t, .doclog, none⟩
       else if k = kindStr .permissions then some ⟨t, .permissions, none⟩
       else none) := by
  unfold decode
  rw [hs]

theorem decode_of_split_three (s t k i : Str) (hs : splitSep '/' s = [t, k, i]) :
    decode s =
      (if k = kindStr .thought then some ⟨t, .thought, some i⟩
       else if k = kindStr .lexeme then some ⟨t, .lexeme, some i⟩
       else none) := by
  unfold decode
  rw [hs]

theorem splitSep_encode_none (t : Str) (k : DocKind) (ht : '/' ∉ t) :
    splitSep '/' (encode ⟨t, k, none⟩) = [t, kindStr k] := by
  show splitSep '/' (t ++ ('/' :: (kindStr k ++ []))) = [t, kindStr k]
  rw [splitSep_append '/' t _ ht, List.append_nil,
    splitSep_no_sep '/' (kindStr k) (kindStr_no_sep k)]

theorem splitSep_encode_some (t i : Str) (k : DocKind) (ht : '/' ∉ t) (hi : '/' ∉ i) :
    splitSep '/' (encode ⟨t, k, some i⟩) = [t, kindStr k, i] := by
  show splitSep '/' (t ++ ('/' :: (kindStr k ++ '/' :: i))) = [t, kindStr k, i]
  rw [splitSep_append '/' t _ ht,
    splitSep_append '/' (kindStr k) i (kindStr_no_sep k),
    splitSep_no_sep '/' i hi]

theorem decode_encode (d : DocumentName) (h : validName d = true) :
    decode (encode d) = some d := by
  obtain ⟨t, k, i⟩ := d
  simp only [validName, Bool.and_eq_true, decide_eq_true_eq] at h
  obtain ⟨ht, hki⟩ := h
  cases k <;> cases i
  case thought.none => exact Bool.noConfusion hki
  case lexeme.none => exact Bool.noConfusion hki
  case doclog.some j => exact Bool.noConfusion hki
  case permissions.some j => exact Bool.noConfusion hki
  case thought.some j =>
    rw [decide_eq_true_eq] at hki
    rw [decode_of_split_three _ t (kindStr .thought) j (splitSep_encode_some t j .thought ht hki)]
    rw [if_pos rfl]
  case lexeme.some j =>
    rw [decide_eq_true_eq] at hki
    rw [decode_of_split_three _ t (kindStr .lexeme) j (splitSep_encode_some t j .lexeme ht hki)]
    rw [if_neg (by decide), if_pos rfl]
  case doclog.none =>
    rw [decode_of_split_two _ t (kindStr .doclog) (splitSep_encode_none t .doclog ht)]
    rw [if_pos rfl]
  case permissions.none =>
    rw [decode_of_split_two _ t (kindStr .permissions) (splitSep_encode_none t .permissions ht)]
    rw [if_neg (by decide), if_pos rfl]

theorem encode_decode (s : Str) (d : DocumentName) (h : decode s = some d) :
    encode d = s := by
  have hj := joinSep_splitSep '/' s
  cases hs : splitSep '/' s with
  | nil => unfold decode at h; rw [hs] at h; exact absurd h (by simp)
  | cons t rest =>
    cases rest with
    | nil => unfold decode at h; rw [hs] at h; exact absurd h (by simp)
    | cons k rest2 =>
      cases rest2 with
      | nil =>
        rw [decode_of_split_two s t k hs] at h
        rw [hs] at hj
        by_cases hk1 : k = kindStr .doclog
        · rw [if_pos hk1] at h
          obtain rfl := Option.some_injective _ h
          rw [← hj, joinSep_pair]
          show t ++ ('/' :: (kindStr .doclog ++ [])) = t ++ '/' :: joinSep '/' [k]
          simp [joinSep, hk1]
        · rw [if_neg hk1] at h
          by_cases hk2 : k = kindStr .permissions
          · rw [if_pos hk2] at h
            obtain rfl := Option.some_injective _ h
            rw [← hj, joinSep_pair]
            show t ++ ('/' :: (kindStr .permissions ++ [])) = t ++ '/' :: joinSep '/' [k]
            simp [joinSep, hk2]
          · rw [if_neg hk2] at h
            exact absurd h (by simp)
      | cons i rest3 =>
        cases rest3 with
        | nil =>
          rw [decode_of_split_three s t k i hs] at h
          rw [hs] at hj
          by_cases hk1 : k = kindStr .thought
          · rw [if_pos hk1] at h
            obtain rfl := Option.some_injective _ h
            rw [← hj, joinSep_pair, joinSep_pair]
            show t ++ ('/' :: (kindStr .thought ++ '/' :: i)) =
              t ++ '/' :: (k ++ '/' :: joinSep '/' [i])
            simp [joinSep, hk1]
          · rw [if_neg hk1] at h
            by_cases hk2 : k = kindStr .lexeme
            · rw [if_pos hk2] at h
              obtain rfl := Option.some_injective _ h
              rw [← hj, joinSep_pair, joinSep_pair]
              show t ++ ('/' :: (kindStr .lexeme ++ '/' :: i)) =
                t ++ '/' :: (k ++ '/' :: joinSep '/' [i])
              simp [joinSep, hk2]
            · rw [if_neg hk2] at h
              exact absurd h (by simp)
        | cons _ _ =>
          unfold decode at h
          rw [hs] at h
          exact absurd h (by simp)

theorem encode_injective (d₁ d₂ : DocumentName)
    (h₁ : validName d₁ = true) (h₂ : validName d₂ = true)
    (h : encode d₁ = encode d₂) : d₁ = d₂ := by
  have e₁ := decode_encode d₁ h₁
  have e₂ := decode_encode d₂ h₂
  rw [h, e₂] at e₁
  exact (Option.some_injective _ e₁).symm

/-- Modelled from the spec: the total parse used by the server hooks, which
destructures the split fields `[tsid, type, id]` of a document name. -/
structure ParsedName where
  tsid : Str
  dtype : Option Str
  entity : Option Str
deriving DecidableEq, Repr

/-- Modelled from the spec: `parseDocumentName` splits a document name on the
separator and returns its tenant id, kind field and entity field. -/
def parseDocumentName (s : Str) : ParsedName :=
  match splitSep '/' s with
  | [] => ⟨[], none, none⟩
  | [t] => ⟨t, none, none⟩
  | [t, k] => ⟨t, some k, none⟩
  | t :: k :: i :: _ => ⟨t, some k, some i⟩

theorem parse_encode_none (t : Str) (k : DocKind) (ht : '/' ∉ t) :
    parseDocumentName (encode ⟨t, k, none⟩) = ⟨t, some (kindStr k), none⟩ := by
  unfold parseDocumentName
  rw [splitSep_encode_none t k ht]

theorem parse_encode_some (t i : Str) (k : DocKind) (ht : '/' ∉ t) (hi : '/' ∉ i) :
    parseDocumentName (encode ⟨t, k, some i⟩) = ⟨t, some (kindStr k), some i⟩ := by
  unfold parseDocumentName
  rw [splitSep_encode_some t i k ht hi]

/-! ## Association-list model of Y.Map and of the JS `Map` registries -/

/-- Looks a key up in an association list (the Y.Map / JS Map `get`). -/
def aget {κ α : Type} [DecidableEq κ] : List (κ × α) → κ → Option α
  | [], _ => none
  | (k', v) :: rest, k => if k' = k then some v else aget rest k

/-- Inserts or overwrites a key (the Y.Map / JS Map `set`). -/
def aset {κ α : Type} [DecidableEq κ] : List (κ × α) → κ → α → List (κ × α)
  | [], k, v => [(k, v)]
  | (k', v') :: rest, k, v =>
    if k' = k then (k, v) :: rest else (k', v') :: aset rest k v

/-- Removes a key (the Y.Map / JS Map `delete`). -/
def adel {κ α : Type} [DecidableEq κ] : List (κ × α) → κ → List (κ × α)
  | [], _ => []
  | (k', v') :: rest, k =>
    if k' = k then adel rest k else (k', v') :: adel rest k

theorem aget_aset_self {κ α : Type} [DecidableEq κ] (m : List (κ × α)) (k : κ) (v : α) :
    aget (aset m k v) k = some v := by
  induction m with
  | nil => simp [aset, aget]
  | cons p rest ih =>
    obtain ⟨k', v'⟩ := p
    by_cases hk : k' = k
    · simp [aset, hk, aget]
    · simp [aset, hk, aget, ih]

theorem aget_aset_ne {κ α : Type} [DecidableEq κ] (m : List (κ × α)) (k j : κ) (v : α)
    (h : k ≠ j) : aget (aset m k v) j = aget m j := by
  induction m with
  | nil => simp [aset, aget, h]
  | cons p rest ih =>
    obtain ⟨k', v'⟩ := p
    by_cases hk : k' = k
    · subst hk
      simp [aset, aget, h]
    · simp [aset, hk, aget, ih]

theorem aget_adel_self {κ α : Type} [DecidableEq κ] (m : List (κ × α)) (k : κ) :
    aget (adel m k) k = none := by
  induction m with
  | nil => simp [adel, aget]
  | cons p rest ih =>
    obtain ⟨k', v'⟩ := p
    by_cases hk : k' = k
    · simp [adel, hk, ih]
    · simp [adel, hk, aget, ih]

theorem aget_adel_ne {κ α : Type} [DecidableEq κ] (m : List (κ × α)) (k j : κ)
    (h : k ≠ j) : aget (adel m k) j = aget m j := by
  induction m with
  | nil => simp [adel]
  | cons p rest ih =>
    obtain ⟨k', v'⟩ := p
    by_cases hk : k' = k
    · subst hk
      simp [adel, aget, h, ih]
    · simp [adel, hk, aget, ih]

theorem aset_cons_self {κ α : Type} [DecidableEq κ] (k : κ) (v' v : α)
    (rest : List (κ × α)) : aset ((k, v') :: rest) k v = (k, v) :: rest := by
  simp [aset]

theorem aset_cons_ne {κ α : Type} [DecidableEq κ] (k' k : κ) (v' v : α)
    (rest : List (κ × α)) (h : k' ≠ k) :
    aset ((k', v') :: rest) k v = (k', v') :: aset rest k v := by
  simp [aset, h]

theorem mem_keys_aset {κ α : Type} [DecidableEq κ] (m : List (κ × α)) (k j : κ) (v : α) :
    j ∈ (aset m k v).map Prod.fst ↔ j ∈ m.map Prod.fst ∨ j = k := by
  induction m with
  | nil => simp [aset]
  | cons p rest ih =>
    obtain ⟨k', v'⟩ := p
    by_cases hk : k' = k
    · subst hk
      rw [aset_cons_self]
      simp only [List.map_cons, List.mem_cons]
      tauto
    · rw [aset_cons_ne k' k v' v rest hk]
      simp only [List.map_cons, List.mem_cons, ih]
      tauto

theorem keys_nodup_aset {κ α : Type} [DecidableEq κ] (m : List (κ × α)) (k : κ) (v : α)
    (h : (m.map Prod.fst).Nodup) : ((aset m k v).map Prod.fst).Nodup := by
  induction m with
  | nil => simp [aset]
  | cons p rest ih =>
    obtain ⟨k', v'⟩ := p
    simp only [List.map_cons, List.nodup_cons] at h
    by_cases hk : k' = k
    · subst hk
      rw [aset_cons_self]
      simp only [List.map_cons, List.nodup_cons]
      exact h
    · rw [aset_cons_ne k' k v' v rest hk]
      simp only [List.map_cons, List.nodup_cons]
      refine ⟨?_, ih h.2⟩
      intro hmem
      rcases (mem_keys_aset rest k k' v).1 hmem with h1 | h1
      · exact h.1 h1
      · exact hk h1

/-! ## Data model: Share records and permission maps -/

/-- A permission record, `src/@types/Share`: display name, role and logical
timestamps, keyed by access token within one tenant. -/
structure Share where
  accessed : Nat
  created : Nat
  name : String
  role : String
deriving DecidableEq, Repr

/-- A per-tenant permission map: access token to Share. -/
abbrev PermMap := List (String × Share)

/-- The process-wide server permissions document, one map per tenant id. -/
abbrev PermsDoc := List (Str × PermMap)

/-- Y.Doc `getMap`: the tenant's map, empty when never written. -/
def getMapD (doc : PermsDoc) (tsid : Str) : PermMap :=
  (aget doc tsid).getD []

/-- The Share the bootstrap path installs (`src/server/index.ts:95`). -/
def ownerShare (now : Nat) : Share :=
  ⟨now, now, "Owner", "owner"⟩

/-- The `onAuthenticate` hook (`src/server/index.ts:85-106`): decode the
tenant id, bootstrap an owner Share when the tenant map is empty, then accept
exactly the tokens whose stored Share has role owner. -/
def onAuthenticate (doc : PermsDoc) (now : Nat) (token : String) (documentName : Str) :
    Except String (PermsDoc × String) :=
  let tsid := (parseDocumentName documentName).tsid
  let m := getMapD doc tsid
  let m2 := if m.length = 0 then aset m token (ownerShare now) else m
  let doc2 := if m.length = 0 then aset doc tsid m2 else doc
  if (aget m2 token).map Share.role = some "owner" then
    .ok (doc2, token)
  else
    .error "Not authorized"

/-- Y.Map key-change actions delivered to map observers. -/
inductive YChange where
  | add
  | update
  | delete
deriving DecidableEq, Repr

/-- The per-key body of the permissionsClientMap observer installed in
`onLoadDocument` (`src/server/index.ts:148-165`): removals delete the server
entry; otherwise an absent client Share changes nothing, and a client Share
differing from the server one in name or role is copied over. -/
def reconcileKey (permissionsClientMap permissionsServerMap : PermMap)
    (change : YChange) (key : String) : PermMap :=
  if change = .delete then adel permissionsServerMap key
  else
    match aget permissionsClientMap key with
    | none => permissionsServerMap
    | some clientShare =>
      if some clientShare.name ≠ (aget permissionsServerMap key).map Share.name ∨
          some clientShare.role ≠ (aget permissionsServerMap key).map Share.role then
        aset permissionsServerMap key clientShare
      else permissionsServerMap

/-- The observer callback body folds `reconcileKey` over every changed key of
the event (`e.changes.keys.forEach`). -/
def observeCallback (permissionsClientMap permissionsServerMap : PermMap)
    (changes : List (YChange × String)) : PermMap :=
  changes.foldl (fun sm c => reconcileKey permissionsClientMap sm c.1 c.2)
    permissionsServerMap

/-- C1: onAuthenticate bootstraps an owner Share for the token on an empty
tenant map and succeeds; on a non-empty map it succeeds exactly when the
stored Share for the token has role owner, and otherwise fails with
"Not authorized" without mutating the map. -/
theorem onAuthenticate_spec (doc : PermsDoc) (now : Nat) (token : String) (dn : Str) :
    (getMapD doc (parseDocumentName dn).tsid = [] →
      onAuthenticate doc now token dn =
        .ok (aset doc (parseDocumentName dn).tsid [(token, ownerShare now)], token) ∧
      aget (getMapD (aset doc (parseDocumentName dn).tsid [(token, ownerShare now)])
          (parseDocumentName dn).tsid) token = some ⟨now, now, "Owner", "owner"⟩) ∧
    (getMapD doc (parseDocumentName dn).tsid ≠ [] →
      ((aget (getMapD doc (parseDocumentName dn).tsid) token).map Share.role = some "owner" →
        onAuthenticate doc now token dn = .ok (doc, token)) ∧
      ((aget (getMapD doc (parseDocumentName dn).tsid) token).map Share.role ≠ some "owner" →
        onAuthenticate doc now token dn = .error "Not authorized")) := by
  constructor
  · intro hm
    constructor
    · simp only [onAuthenticate]
      rw [hm]
      simp [aset, aget, ownerShare]
    · simp [getMapD, aget_aset_self, aget, ownerShare]
  · intro hm
    have hlen : (getMapD doc (parseDocumentName dn).tsid).length ≠ 0 := by
      simpa [List.length_eq_zero] using hm
    constructor
    · intro hrole
      simp only [onAuthenticate]
      rw [if_neg hlen, if_neg hlen, if_pos hrole]
    · intro hrole
      simp only [onAuthenticate]
      rw [if_neg hlen, if_neg hlen, if_neg hrole]

theorem onAuthenticate_spec_witness :
    getMapD [] (parseDocumentName "ts1/permissions".toList).tsid = [] ∧
    onAuthenticate [] 5 "abc123" "ts1/permissions".toList =
      .ok (aset [] (parseDocumentName "ts1/permissions".toList).tsid
        [("abc123", ownerShare 5)], "abc123") :=
  ⟨rfl, ((onAuthenticate_spec [] 5 "abc123" "ts1/permissions".toList).1 rfl).1⟩

/-- C4: per changed key of a permissions client-map event, a removal deletes
the server entry; a non-removal with an absent client Share changes nothing;
a non-removal whose client Share differs from the server one in name or role
(timestamps excluded) copies the client value; otherwise the server map is
unchanged. -/
theorem reconcileKey_spec (cm sm : PermMap) (change : YChange) (key : String) :
    (∀ c, observeCallback cm sm [(c, key)] = reconcileKey cm sm c key) ∧
    (change = .delete →
      reconcileKey cm sm change key = adel sm key ∧
      aget (reconcileKey cm sm change key) key = none) ∧
    (change ≠ .delete → aget cm key = none →
      reconcileKey cm sm change key = sm) ∧
    (∀ cs, change ≠ .delete → aget cm key = some cs →
      ((some cs.name ≠ (aget sm key).map Share.name ∨
          some cs.role ≠ (aget sm key).map Share.role) →
        reconcileKey cm sm change key = aset sm key cs ∧
        aget (reconcileKey cm sm change key) key = some cs) ∧
      (some cs.name = (aget sm key).map Share.name ∧
          some cs.role = (aget sm key).map Share.role →
        reconcileKey cm sm change key = sm)) := by
  refine ⟨fun c => rfl, ?_, ?_, ?_⟩
  · intro hc
    subst hc
    refine ⟨by simp [reconcileKey], ?_⟩
    simp [reconcileKey, aget_adel_self]
  · intro hc hget
    simp [reconcileKey, hc, hget]
  · intro cs hc hget
    have hsome : reconcileKey cm sm change key =
        if some cs.name ≠ (aget sm key).map Share.name ∨
            some cs.role ≠ (aget sm key).map Share.role then
          aset sm key cs
        else sm := by
      unfold reconcileKey
      rw [if_neg hc, hget]
    constructor
    · intro hdiff
      rw [hsome, if_pos hdiff]
      exact ⟨rfl, aget_aset_self sm key cs⟩
    · intro heq
      rw [hsome, if_neg (fun h => h.elim (fun hn => hn heq.1) (fun hn => hn heq.2))]

theorem reconcileKey_spec_witness :
    YChange.update ≠ YChange.delete ∧
    aget [("u1", (⟨1, 1, "Bob", "admin"⟩ : Share))] "u1" =
      some (⟨1, 1, "Bob", "admin"⟩ : Share) ∧
    reconcileKey [("u1", ⟨1, 1, "Bob", "admin"⟩)] [("u1", ⟨2, 2, "Bob", "owner"⟩)]
      .update "u1" = aset [("u1", ⟨2, 2, "Bob", "owner"⟩)] "u1" ⟨1, 1, "Bob", "admin"⟩ := by
  refine ⟨by decide, by rfl, ?_⟩
  exact (((reconcileKey_spec [("u1", ⟨1, 1, "Bob", "admin"⟩)]
    [("u1", ⟨2, 2, "Bob", "owner"⟩)] .update "u1").2.2.2 ⟨1, 1, "Bob", "admin"⟩
    (by decide) (by rfl)).1 (by simp [aget])).1

/-- C5: decode is a left inverse of encode on valid document names (so decode
never fails on an encoding), encode reconstructs every string decode accepts,
and encoding is injective on valid names: no two distinct valid triples
share an encoding. -/
theorem codec_roundtrip :
    (∀ d : DocumentName, validName d = true → decode (encode d) = some d) ∧
    (∀ (s : Str) (d : DocumentName), decode s = some d → encode d = s) ∧
    (∀ d₁ d₂ : DocumentName, validName d₁ = true → validName d₂ = true →
      encode d₁ = encode d₂ → d₁ = d₂) :=
  ⟨decode_encode, encode_decode, encode_injective⟩

theorem codec_roundtrip_witness :
    validName ⟨"ts1".toList, .thought, some "T1".toList⟩ = true ∧
    decode (encode ⟨"ts1".toList, .thought, some "T1".toList⟩) =
      some ⟨"ts1".toList, .thought, some "T1".toList⟩ :=
  ⟨by decide, codec_roundtrip.1 ⟨"ts1".toList, .thought, some "T1".toList⟩ (by decide)⟩

/-! ## Document session manager: bindState over the CRDT model

A Yjs document state is modelled as the finite set of update identifiers it
has integrated; applying an update is set union, which is idempotent,
commutative and associative exactly like Yjs update merging. -/

/-- A CRDT document state: the set of integrated update identifiers. -/
abbrev DocState := Finset Nat

/-- An intermediate configuration while `bindState`
(`src/server/index.ts:74-82`) runs: the store contents, the live document
state, the persisted snapshot read in step 1, and whether the update
subscription is installed yet. -/
structure BindConfig where
  store : DocState
  doc : DocState
  docPersisted : Option DocState
  subscribed : Bool
deriving DecidableEq

/-- Step 1 of bindState: `await db.getYDoc(docName)` reads the persisted state. -/
def bindStep1 (c : BindConfig) : BindConfig :=
  { c with docPersisted := some c.store }

/-- Step 2 of bindState: `await db.storeUpdate(docName, encodeStateAsUpdate doc)`
writes the current in-memory state to the store. -/
def bindStep2 (c : BindConfig) : BindConfig :=
  { c with store := c.store ∪ c.doc }

/-- Step 3 of bindState: `applyUpdate doc (encodeStateAsUpdate docPersisted)`
merges the snapshot read in step 1 into the live document. -/
def bindStep3 (c : BindConfig) : BindConfig :=
  { c with doc := c.doc ∪ c.docPersisted.getD ∅ }

/-- Step 4 of bindState: `doc.on('update', ...)` installs the subscription. -/
def bindStep4 (c : BindConfig) : BindConfig :=
  { c with subscribed := true }

/-- The whole of `bindState`, steps in source order. -/
def bindState (store doc : DocState) : BindConfig :=
  bindStep4 (bindStep3 (bindStep2 (bindStep1 ⟨store, doc, none, false⟩)))

/-- An update delivered to the live document after binding: the document
integrates it and the installed subscription appends it to the store. -/
def applyUpdateBound (c : BindConfig) (u : DocState) : BindConfig :=
  { c with doc := c.doc ∪ u,
           store := if c.subscribed then c.store ∪ u else c.store }

/-- C3: bindState writes the in-memory state durably in step 2, before the
persisted state is merged in step 3; afterwards the live document is the CRDT
union of its prior state and the persisted state, and the installed
subscription appends every subsequent update to the store. -/
theorem bindState_spec (store doc : DocState) :
    doc ⊆ (bindStep2 (bindStep1 ⟨store, doc, none, false⟩)).store ∧
    (bindStep2 (bindStep1 ⟨store, doc, none, false⟩)).doc = doc ∧
    (bindState store doc).doc = doc ∪ store ∧
    (bindState store doc).store = store ∪ doc ∧
    (bindState store doc).subscribed = true ∧
    (∀ u : DocState, u ⊆ (applyUpdateBound (bindState store doc) u).store ∧
      (applyUpdateBound (bindState store doc) u).doc =
        (bindState store doc).doc ∪ u) := by
  refine ⟨?_, rfl, ?_, ?_, rfl, ?_⟩
  · simp [bindStep1, bindStep2]
  · simp [bindState, bindStep1, bindStep2, bindStep3, bindStep4]
  · simp [bindState, bindStep1, bindStep2, bindStep3, bindStep4]
  · intro u
    constructor
    · simp only [bindState, bindStep1, bindStep2, bindStep3, bindStep4, applyUpdateBound]
      intro x hx
      simp [hx]
    · rfl

/-! ## Server orchestration state -/

/-- Modelled from the spec: the specific encoders re-exported by the codec
module and called in `src/server/index.ts`. -/
def encodeThoughtDocumentName (tsid id : Str) : Str :=
  encode ⟨tsid, .thought, some id⟩

/-- Encoder for lexeme document names. -/
def encodeLexemeDocumentName (tsid id : Str) : Str :=
  encode ⟨tsid, .lexeme, some id⟩

/-- Encoder for per-tenant permissions document names. -/
def encodePermissionsDocumentName (tsid : Str) : Str :=
  encode ⟨tsid, .permissions, none⟩

/-- A durable per-tenant store: document name to persisted CRDT state. -/
abbrev Store := List (Str × DocState)

/-- The in-memory module state of `src/server/index.ts`: the process-wide
server permissions doc, the hocuspocus document registry, the set of client
permission maps carrying an installed observer, the three per-tenant handle
registries with a fresh-handle counter, and the durable on-disk contents,
which outlive handle destruction. -/
structure ServerState where
  permsServer : PermsDoc
  documents : List (Str × PermMap)
  observers : List Str
  ldbThoughtspaces : List (Str × Nat)
  ldbDoclogs : List (Str × Nat)
  ldbReplicationCursors : List (Str × Nat)
  nextHandle : Nat
  thoughtsDisk : List (Str × Store)
  doclogsDisk : List (Str × Store)
deriving DecidableEq

/-- Reads the persisted state of one document from a tenant's disk store
(empty when absent, as y-leveldb's `getYDoc`). -/
def diskRead (disk : List (Str × Store)) (tsid docName : Str) : DocState :=
  (aget ((aget disk tsid).getD []) docName).getD ∅

/-- Writes the persisted state of one document in a tenant's disk store. -/
def diskWrite (disk : List (Str × Store)) (tsid docName : Str) (s : DocState) :
    List (Str × Store) :=
  aset disk tsid (aset ((aget disk tsid).getD []) docName s)

/-- Clears one document from a tenant's disk store (`clearDocument`). -/
def diskClear (disk : List (Str × Store)) (tsid docName : Str) :
    List (Str × Store) :=
  aset disk tsid (adel ((aget disk tsid).getD []) docName)

/-- Lines 168-172: reuse the registered thoughtspace handle for the tenant or
construct and register a fresh `LeveldbPersistence`. -/
def openThoughtspaceDb (st : ServerState) (tsid : Str) : ServerState × Nat :=
  match aget st.ldbThoughtspaces tsid with
  | some db => (st, db)
  | none =>
    ({ st with ldbThoughtspaces := aset st.ldbThoughtspaces tsid st.nextHandle,
               nextHandle := st.nextHandle + 1 }, st.nextHandle)

/-- Lines 175-179: reuse or construct the tenant's doclog handle. -/
def openDoclogDb (st : ServerState) (tsid : Str) : ServerState × Nat :=
  match aget st.ldbDoclogs tsid with
  | some db => (st, db)
  | none =>
    ({ st with ldbDoclogs := aset st.ldbDoclogs tsid st.nextHandle,
               nextHandle := st.nextHandle + 1 }, st.nextHandle)

/-- Lines 182-186: reuse or construct the tenant's replication cursor store. -/
def openReplicationCursorDb (st : ServerState) (tsid : Str) : ServerState × Nat :=
  match aget st.ldbReplicationCursors tsid with
  | some db => (st, db)
  | none =>
    ({ st with ldbReplicationCursors := aset st.ldbReplicationCursors tsid st.nextHandle,
               nextHandle := st.nextHandle + 1 }, st.nextHandle)

/-- Doclog entry actions, `src/@types/DocLogAction`. -/
inductive DocLogAction where
  | update
  | delete
deriving DecidableEq, Repr

/-- Entity kinds carried by doclog entries. -/
inductive EntityKind where
  | thought
  | lexeme
deriving DecidableEq, Repr

/-- One doclog entry handed to the replication controller's `next`. -/
structure DocLogEntry where
  action : DocLogAction
  etype : EntityKind
  id : Str
deriving DecidableEq, Repr

/-- Observable side effects of the replication delete handler, in source
order: destroying the bound doclog live document, looking the content store
up in the registry, logging the missing-instance diagnostic, clearing a
persisted document. -/
inductive HandlerEffect where
  | destroyDoclogDoc
  | lookupContentDb
  | logMissingDb
  | clearDocument (docName : Str)
deriving DecidableEq, Repr

/-- The `next` handler the replication controller calls for each doclog entry
(`src/server/index.ts:193-205`): on a Delete entry it resolves the storage
key via the codec, destroys the doclog live document, then looks up the
tenant's content store — logging and skipping the clear when the handle is
absent, clearing the key otherwise. -/
def replicationNext (st : ServerState) (tsid : Str) (e : DocLogEntry) :
    ServerState × List HandlerEffect :=
  if e.action = .delete then
    let docName := if e.etype = .thought then encodeThoughtDocumentName tsid e.id
                   else encodeLexemeDocumentName tsid e.id
    match aget st.ldbThoughtspaces tsid with
    | none => (st, [.destroyDoclogDoc, .lookupContentDb, .logMissingDb])
    | some _ =>
      ({ st with thoughtsDisk := diskClear st.thoughtsDisk tsid docName },
       [.destroyDoclogDoc, .lookupContentDb, .clearDocument docName])
  else (st, [])

/-- The result of the onLoadDocument hook: next server state, live document
state, whether a bindState subscription was installed, and whether a
replication controller was attached. -/
structure LoadResult where
  state : ServerState
  doc : DocState
  bound : Bool
  controllerAttached : Bool
deriving DecidableEq

/-- The `onLoadDocument` hook (`src/server/index.ts:109-227`): guard on the
authenticated token's owner role, then dispatch on document kind — seed the
client permissions map and install the observer, bind thought/lexeme content
documents, bind doclogs and attach the replication controller, or log an
unrecognized kind and do nothing. -/
def onLoadDocument (st : ServerState) (token : String) (document : DocState)
    (documentName : Str) : LoadResult :=
  let tsid := (parseDocumentName documentName).tsid
  let dtype := (parseDocumentName documentName).dtype
  if (aget (getMapD st.permsServer tsid) token).map Share.role ≠ some "owner" then
    ⟨st, document, false, false⟩
  else if dtype = some (kindStr .permissions) then
    match aget st.documents (encodePermissionsDocumentName tsid) with
    | none => ⟨st, document, false, false⟩
    | some clientMap =>
      let copied := (getMapD st.permsServer tsid).foldl
        (fun m kv => aset m kv.1 kv.2) clientMap
      ⟨{ st with
          documents := aset st.documents (encodePermissionsDocumentName tsid) copied,
          observers := encodePermissionsDocumentName tsid :: st.observers },
        document, false, false⟩
  else if dtype = some (kindStr .thought) ∨ dtype = some (kindStr .lexeme) then
    let st2 := (openThoughtspaceDb st tsid).1
    let persisted := diskRead st2.thoughtsDisk tsid documentName
    ⟨{ st2 with thoughtsDisk :=
        diskWrite st2.thoughtsDisk tsid documentName (persisted ∪ document) },
      document ∪ persisted, true, false⟩
  else if dtype = some (kindStr .doclog) then
    let st2 := (openDoclogDb st tsid).1
    let st3 := (openReplicationCursorDb st2 tsid).1
    let persisted := diskRead st3.doclogsDisk tsid documentName
    ⟨{ st3 with doclogsDisk :=
        diskWrite st3.doclogsDisk tsid documentName (persisted ∪ document) },
      document ∪ persisted, true, true⟩
  else ⟨st, document, false, false⟩

/-- The `onDisconnect` hook (`src/server/index.ts:243-263`): when the doclog
session for a tenant closes, destroy and deregister the tenant's content and
doclog handles and close and deregister its replication cursor store; the
durable disk contents are untouched. -/
def onDisconnect (st : ServerState) (documentName : Str) : ServerState :=
  let tsid := (parseDocumentName documentName).tsid
  if (parseDocumentName documentName).dtype = some (kindStr .doclog) then
    { st with ldbThoughtspaces := adel st.ldbThoughtspaces tsid,
              ldbDoclogs := adel st.ldbDoclogs tsid,
              ldbReplicationCursors := adel st.ldbReplicationCursors tsid }
  else st

theorem diskRead_diskClear (disk : List (Str × Store)) (tsid docName : Str) :
    diskRead (diskClear disk tsid docName) tsid docName = ∅ := by
  simp [diskRead, diskClear, aget_aset_self, aget_adel_self]

/-- C2: on a Delete doclog entry the handler computes the storage key with
the codec (thought or lexeme encoder) and clears it from the tenant's content
store, so a subsequent read of that key is empty; when the content store
handle is missing it logs the diagnostic and skips the clear, leaving all
state unchanged rather than retrying or raising. -/
theorem replicationNext_delete_spec (st : ServerState) (tsid : Str) (e : DocLogEntry)
    (key : Str) (hd : e.action = .delete)
    (hkey : key = (if e.etype = .thought then encodeThoughtDocumentName tsid e.id
                   else encodeLexemeDocumentName tsid e.id)) :
    (∀ h, aget st.ldbThoughtspaces tsid = some h →
      (replicationNext st tsid e).1 =
        { st with thoughtsDisk := diskClear st.thoughtsDisk tsid key } ∧
      diskRead (replicationNext st tsid e).1.thoughtsDisk tsid key = ∅ ∧
      (replicationNext st tsid e).2 =
        [.destroyDoclogDoc, .lookupContentDb, .clearDocument key]) ∧
    (aget st.ldbThoughtspaces tsid = none →
      (replicationNext st tsid e).1 = st ∧
      (replicationNext st tsid e).2 =
        [.destroyDoclogDoc, .lookupContentDb, .logMissingDb]) := by
  constructor
  · intro h hh
    have hrun : replicationNext st tsid e =
        ({ st with thoughtsDisk := diskClear st.thoughtsDisk tsid key },
         [.destroyDoclogDoc, .lookupContentDb, .clearDocument key]) := by
      unfold replicationNext
      rw [hd, if_pos rfl, hh, ← hkey]
    rw [hrun]
    exact ⟨rfl, diskRead_diskClear st.thoughtsDisk tsid key, rfl⟩
  · intro hh
    have hrun : replicationNext st tsid e =
        (st, [.destroyDoclogDoc, .lookupContentDb, .logMissingDb]) := by
      unfold replicationNext
      rw [hd, if_pos rfl, hh]
    rw [hrun]
    exact ⟨rfl, rfl⟩

theorem replicationNext_delete_spec_witness :
    (⟨.delete, .thought, "T1".toList⟩ : DocLogEntry).action = .delete ∧
    aget (⟨[], [], [], [("ts1".toList, 7)], [], [], 8, [], []⟩ :
      ServerState).ldbThoughtspaces "ts1".toList = some 7 ∧
    diskRead (replicationNext ⟨[], [], [], [("ts1".toList, 7)], [], [], 8, [], []⟩
        "ts1".toList ⟨.delete, .thought, "T1".toList⟩).1.thoughtsDisk
      "ts1".toList (encodeThoughtDocumentName "ts1".toList "T1".toList) = ∅ := by
  refine ⟨rfl, by simp [aget], ?_⟩
  exact ((replicationNext_delete_spec ⟨[], [], [], [("ts1".toList, 7)], [], [], 8, [], []⟩
    "ts1".toList ⟨.delete, .thought, "T1".toList⟩
    (encodeThoughtDocumentName "ts1".toList "T1".toList) rfl rfl).1 7
    (by simp [aget])).2.1

/-- C9: on every Delete entry the handler destroys the bound doclog live
document itself first — before the content-store lookup — and does so in both
the handle-present and handle-missing cases. -/
theorem replicationNext_destroys_doclog (st : ServerState) (tsid : Str)
    (e : DocLogEntry) (hd : e.action = .delete) :
    (replicationNext st tsid e).2.head? = some .destroyDoclogDoc ∧
    (replicationNext st tsid e).2.take 2 =
      [HandlerEffect.destroyDoclogDoc, HandlerEffect.lookupContentDb] ∧
    HandlerEffect.destroyDoclogDoc ∈ (replicationNext st tsid e).2 := by
  unfold replicationNext
  rw [hd, if_pos rfl]
  cases hget : aget st.ldbThoughtspaces tsid <;> simp [hget]

theorem replicationNext_destroys_doclog_witness :
    (⟨.delete, .lexeme, "lex1".toList⟩ : DocLogEntry).action = .delete ∧
    (replicationNext ⟨[], [], [], [], [], [], 0, [], []⟩ "ts1".toList
      ⟨.delete, .lexeme, "lex1".toList⟩).2.head? = some .destroyDoclogDoc :=
  ⟨rfl, (replicationNext_destroys_doclog ⟨[], [], [], [], [], [], 0, [], []⟩
    "ts1".toList ⟨.delete, .lexeme, "lex1".toList⟩ rfl).1⟩

/-- C10: when the authenticated token's Share in the tenant's server map is
absent or not owner, onLoadDocument returns immediately: the server state
(registries, disks, permissions, documents, observers) and the live document
are unchanged and no subscription or controller is installed. -/
theorem onLoadDocument_guard (st : ServerState) (token : String)
    (document : DocState) (dn : Str)
    (h : (aget (getMapD st.permsServer (parseDocumentName dn).tsid) token).map
      Share.role ≠ some "owner") :
    onLoadDocument st token document dn = ⟨st, document, false, false⟩ := by
  simp only [onLoadDocument]
  rw [if_pos h]

theorem onLoadDocument_guard_witness :
    (aget (getMapD ([] : PermsDoc)
        (parseDocumentName "ts1/thought/T1".toList).tsid) "intruder").map
      Share.role ≠ some "owner" ∧
    onLoadDocument ⟨[], [], [], [], [], [], 0, [], []⟩ "intruder" ∅
        "ts1/thought/T1".toList =
      ⟨⟨[], [], [], [], [], [], 0, [], []⟩, ∅, false, false⟩ :=
  ⟨by simp [getMapD, aget], onLoadDocument_guard ⟨[], [], [], [], [], [], 0, [], []⟩
    "intruder" ∅ "ts1/thought/T1".toList (by simp [getMapD, aget])⟩

/-- C6: each registry keeps at most one handle per tenant (key nodup is
preserved by every open), an open for an already-registered {tenant, kind}
returns the existing handle with the state untouched, and onLoadDocument on a
tenant with all handles registered leaves every registry and the construction
counter unchanged — it reuses rather than constructing a second store. -/
theorem storeHandle_registry_reuse (st : ServerState) (tsid : Str)
    (token : String) (document : DocState) (dn : Str) (h1 h2 h3 : Nat)
    (htsid : (parseDocumentName dn).tsid = tsid)
    (ht : aget st.ldbThoughtspaces tsid = some h1)
    (hd : aget st.ldbDoclogs tsid = some h2)
    (hc : aget st.ldbReplicationCursors tsid = some h3) :
    openThoughtspaceDb st tsid = (st, h1) ∧
    openDoclogDb st tsid = (st, h2) ∧
    openReplicationCursorDb st tsid = (st, h3) ∧
    (∀ (st' : ServerState) (u : Str),
      ((st'.ldbThoughtspaces.map Prod.fst).Nodup →
        (((openThoughtspaceDb st' u).1.ldbThoughtspaces).map Prod.fst).Nodup) ∧
      ((st'.ldbDoclogs.map Prod.fst).Nodup →
        (((openDoclogDb st' u).1.ldbDoclogs).map Prod.fst).Nodup) ∧
      ((st'.ldbReplicationCursors.map Prod.fst).Nodup →
        (((openReplicationCursorDb st' u).1.ldbReplicationCursors).map Prod.fst).Nodup)) ∧
    (onLoadDocument st token document dn).state.ldbThoughtspaces = st.ldbThoughtspaces ∧
    (onLoadDocument st token document dn).state.ldbDoclogs = st.ldbDoclogs ∧
    (onLoadDocument st token document dn).state.ldbReplicationCursors =
      st.ldbReplicationCursors ∧
    (onLoadDocument st token document dn).state.nextHandle = st.nextHandle := by
  have hopen1 : openThoughtspaceDb st tsid = (st, h1) := by
    unfold openThoughtspaceDb
    rw [ht]
  have hopen2 : openDoclogDb st tsid = (st, h2) := by
    unfold openDoclogDb
    rw [hd]
  have hopen3 : openReplicationCursorDb st tsid = (st, h3) := by
    unfold openReplicationCursorDb
    rw [hc]
  have hnodup : ∀ (st' : ServerState) (u : Str),
      ((st'.ldbThoughtspaces.map Prod.fst).Nodup →
        (((openThoughtspaceDb st' u).1.ldbThoughtspaces).map Prod.fst).Nodup) ∧
      ((st'.ldbDoclogs.map Prod.fst).Nodup →
        (((openDoclogDb st' u).1.ldbDoclogs).map Prod.fst).Nodup) ∧
      ((st'.ldbReplicationCursors.map Prod.fst).Nodup →
        (((openReplicationCursorDb st' u).1.ldbReplicationCursors).map Prod.fst).Nodup) := by
    intro st' u
    refine ⟨?_, ?_, ?_⟩
    · intro hn
      unfold openThoughtspaceDb
      cases hget : aget st'.ldbThoughtspaces u
      · simpa using keys_nodup_aset st'.ldbThoughtspaces u st'.nextHandle hn
      · simpa using hn
    · intro hn
      unfold openDoclogDb
      cases hget : aget st'.ldbDoclogs u
      · simpa using keys_nodup_aset st'.ldbDoclogs u st'.nextHandle hn
      · simpa using hn
    · intro hn
      unfold openReplicationCursorDb
      cases hget : aget st'.ldbReplicationCursors u
      · simpa using keys_nodup_aset st'.ldbReplicationCursors u st'.nextHandle hn
      · simpa using hn
  refine ⟨hopen1, hopen2, hopen3, hnodup, ?_⟩
  simp only [onLoadDocument, htsid, hopen1, hopen2, hopen3]
  by_cases hg : (aget (getMapD st.permsServer tsid) token).map Share.role ≠ some "owner"
  · rw [if_pos hg]
    exact ⟨rfl, rfl, rfl, rfl⟩
  · rw [if_neg hg]
    by_cases hperm : (parseDocumentName dn).dtype = some (kindStr .permissions)
    · rw [if_pos hperm]
      cases hdocr : aget st.documents (encodePermissionsDocumentName tsid) <;> simp
    · rw [if_neg hperm]
      by_cases hth : (parseDocumentName dn).dtype = some (kindStr .thought) ∨
          (parseDocumentName dn).dtype = some (kindStr .lexeme)
      · rw [if_pos hth]
        simp [hopen1]
      · rw [if_neg hth]
        by_cases hdl : (parseDocumentName dn).dtype = some (kindStr .doclog)
        · rw [if_pos hdl]
          simp [hopen2, hopen3]
        · rw [if_neg hdl]
          exact ⟨rfl, rfl, rfl, rfl⟩

theorem storeHandle_registry_reuse_witness :
    (parseDocumentName "ts1/doclog".toList).tsid = "ts1".toList ∧
    aget [("ts1".toList, 1)] "ts1".toList = some 1 ∧
    openThoughtspaceDb
        ⟨[], [], [], [("ts1".toList, 1)], [("ts1".toList, 2)], [("ts1".toList, 3)], 4, [], []⟩
        "ts1".toList =
      (⟨[], [], [], [("ts1".toList, 1)], [("ts1".toList, 2)], [("ts1".toList, 3)], 4, [], []⟩,
       1) := by
  refine ⟨rfl, by simp [aget], ?_⟩
  exact (storeHandle_registry_reuse
    ⟨[], [], [], [("ts1".toList, 1)], [("ts1".toList, 2)], [("ts1".toList, 3)], 4, [], []⟩
    "ts1".toList "owner-token" ∅ "ts1/doclog".toList 1 2 3 rfl
    (by simp [aget]) (by simp [aget]) (by simp [aget])).1

/-- C7: disconnecting a doclog document deregisters the tenant's content,
doclog and replication-cursor handles, leaves durable disk contents and the
permissions doc untouched (persisted content reads back unchanged), and a
later open for the same tenant constructs and registers a fresh handle. -/
theorem onDisconnect_spec (st : ServerState) (dn : Str) (tsid : Str)
    (htsid : (parseDocumentName dn).tsid = tsid)
    (hk : (parseDocumentName dn).dtype = some (kindStr .doclog)) :
    aget (onDisconnect st dn).ldbThoughtspaces tsid = none ∧
    aget (onDisconnect st dn).ldbDoclogs tsid = none ∧
    aget (onDisconnect st dn).ldbReplicationCursors tsid = none ∧
    (onDisconnect st dn).thoughtsDisk = st.thoughtsDisk ∧
    (onDisconnect st dn).doclogsDisk = st.doclogsDisk ∧
    (onDisconnect st dn).permsServer = st.permsServer ∧
    (∀ docName, diskRead (onDisconnect st dn).thoughtsDisk tsid docName =
      diskRead st.thoughtsDisk tsid docName) ∧
    (openThoughtspaceDb (onDisconnect st dn) tsid).2 = (onDisconnect st dn).nextHandle ∧
    aget ((openThoughtspaceDb (onDisconnect st dn) tsid).1).ldbThoughtspaces tsid =
      some (onDisconnect st dn).nextHandle := by
  have hrun : onDisconnect st dn =
      { st with ldbThoughtspaces := adel st.ldbThoughtspaces tsid,
                ldbDoclogs := adel st.ldbDoclogs tsid,
                ldbReplicationCursors := adel st.ldbReplicationCursors tsid } := by
    simp only [onDisconnect, htsid]
    rw [if_pos hk]
  rw [hrun]
  have hopen : openThoughtspaceDb
      { st with ldbThoughtspaces := adel st.ldbThoughtspaces tsid,
                ldbDoclogs := adel st.ldbDoclogs tsid,
                ldbReplicationCursors := adel st.ldbReplicationCursors tsid } tsid =
      ({ st with ldbThoughtspaces := aset (adel st.ldbThoughtspaces tsid) tsid st.nextHandle,
                 ldbDoclogs := adel st.ldbDoclogs tsid,
                 ldbReplicationCursors := adel st.ldbReplicationCursors tsid,
                 nextHandle := st.nextHandle + 1 }, st.nextHandle) := by
    unfold openThoughtspaceDb
    rw [show aget (adel st.ldbThoughtspaces tsid) tsid = none from aget_adel_self _ _]
  refine ⟨aget_adel_self _ _, aget_adel_self _ _, aget_adel_self _ _, rfl, rfl, rfl,
    fun docName => rfl, ?_, ?_⟩
  · rw [hopen]
  · rw [hopen]
    exact aget_aset_self _ _ _

theorem onDisconnect_spec_witness :
    (parseDocumentName "ts1/doclog".toList).tsid = "ts1".toList ∧
    (parseDocumentName "ts1/doclog".toList).dtype = some (kindStr .doclog) ∧
    aget (onDisconnect
        ⟨[], [], [], [("ts1".toList, 1)], [("ts1".toList, 2)], [("ts1".toList, 3)], 4, [], []⟩
        "ts1/doclog".toList).ldbThoughtspaces "ts1".toList = none :=
  ⟨rfl, by decide, (onDisconnect_spec
    ⟨[], [], [], [("ts1".toList, 1)], [("ts1".toList, 2)], [("ts1".toList, 3)], 4, [], []⟩
    "ts1/doclog".toList "ts1".toList rfl (by decide)).1⟩

/-! ## Startup ordering -/

/-- A startup configuration of the server process: whether the process-wide
permissions doc finished its initial bindState load, and whether
`server.listen()` has run. -/
structure StartupState where
  permissionsLoaded : Bool
  listening : Bool
deriving DecidableEq, Repr

/-- The startup transitions of `src/server/index.ts:232-285`: the
`permissionsServerSynced` promise resolving is one step, and the sole call
site of `server.listen()` is the `permissionsServerSynced.then(...)`
continuation, which the runtime can only schedule after that resolution. -/
inductive StartupStep : StartupState → StartupState → Prop where
  | resolvePermissions (l : Bool) : StartupStep ⟨false, l⟩ ⟨true, l⟩
  | listen : StartupStep ⟨true, false⟩ ⟨true, true⟩

/-- Startup configurations reachable from process start. -/
inductive StartupReachable : StartupState → Prop where
  | init : StartupReachable ⟨false, false⟩
  | step {s s' : StartupState} : StartupReachable s → StartupStep s s' →
      StartupReachable s'

/-- C8: in every reachable startup configuration the server is listening only
if the permissions document completed its initial load first, so no accepted
session can observe the not-yet-loaded permission map. -/
theorem listen_after_permissions_loaded (s : StartupState)
    (h : StartupReachable s) (hl : s.listening = true) :
    s.permissionsLoaded = true := by
  revert hl
  induction h with
  | init => intro hl; exact absurd hl (by decide)
  | step hr hs ih =>
    intro hl
    cases hs with
    | resolvePermissions l => rfl
    | listen => rfl

theorem listen_after_permissions_loaded_witness :
    StartupReachable ⟨true, true⟩ ∧
    (⟨true, true⟩ : StartupState).listening = true ∧
    (⟨true, true⟩ : StartupState).permissionsLoaded = true :=
  ⟨.step (.step .init (.resolvePermissions false)) .listen, rfl,
   listen_after_permissions_loaded ⟨true, true⟩
     (.step (.step .init (.resolvePermissions false)) .listen) rfl⟩

end EmServer
